import Mathlib

/-
Verification of comtrade.js, a script that fetches UN Comtrade trade
records and renders a stacked area chart of each major trading partner's
share of annual trade.  Records are shallowly embedded as a structure;
JS numbers are modelled as rationals, years and partner codes as
naturals.  Fallible JS lookups (Array.prototype.find on a possibly
missing element, followed by property access) are modelled with Option.
-/

/-- A single trade record from the Comtrade API dataset array: partner
code, partner display title, period (year) and trade value. -/
structure TradeRecord where
  ptCode : Nat
  ptTitle : String
  period : Nat
  TradeValue : ℚ
deriving DecidableEq, Repr

/-- Partner id of the world aggregate (const world = 0). -/
def world : Nat := 0

/-- Partner id of Canada (const canada = 124). -/
def canada : Nat := 124

/-- The deduplication key of a record.  The source builds the uid string
from the numeric fields ptCode and period; on numbers that string is
injective, so it is modelled as the pair of the two fields. -/
def uid (d : TradeRecord) : Nat × Nat :=
  (d.ptCode, d.period)

/-- The walk inside uniqueData: map over the records keeping a set of
seen uids; a record whose uid was already seen maps to undefined, which
the trailing filter removes, otherwise it is kept and its uid added. -/
def uniqueDataAux : List TradeRecord → List (Nat × Nat) → List TradeRecord
  | [], _ => []
  | d :: rest, seen =>
    if uid d ∈ seen then uniqueDataAux rest seen
    else d :: uniqueDataAux rest (uid d :: seen)

/-- uniqueData from comtrade.js: filter out duplicate data, keeping only
the first record for each (ptCode, period) pair. -/
def uniqueData (data : List TradeRecord) : List TradeRecord :=
  uniqueDataAux data []

theorem uniqueDataAux_sublist (data : List TradeRecord) :
    ∀ seen, (uniqueDataAux data seen).Sublist data := by
  induction data with
  | nil => intro seen; simp [uniqueDataAux]
  | cons d0 rest ih =>
    intro seen
    simp only [uniqueDataAux]
    split
    · exact (ih seen).cons d0
    · exact (ih _).cons₂ d0

theorem uniqueDataAux_not_seen (data : List TradeRecord) :
    ∀ seen d, d ∈ uniqueDataAux data seen → uid d ∉ seen := by
  induction data with
  | nil => intro seen d h; simp [uniqueDataAux] at h
  | cons d0 rest ih =>
    intro seen d h
    simp only [uniqueDataAux] at h
    split at h
    · exact ih seen d h
    · rename_i hs
      rcases List.mem_cons.mp h with rfl | h
      · exact hs
      · intro hmem
        exact ih _ d h (List.mem_cons_of_mem _ hmem)

theorem uniqueDataAux_nodup (data : List TradeRecord) :
    ∀ seen, ((uniqueDataAux data seen).map uid).Nodup := by
  induction data with
  | nil => intro seen; simp [uniqueDataAux]
  | cons d0 rest ih =>
    intro seen
    simp only [uniqueDataAux]
    split
    · exact ih seen
    · simp only [List.map_cons, List.nodup_cons]
      refine ⟨?_, ih _⟩
      intro hmem
      rcases List.mem_map.mp hmem with ⟨e, he, heq⟩
      exact uniqueDataAux_not_seen rest _ e he (heq ▸ List.mem_cons_self _ _)

theorem uniqueDataAux_uid_mem (data : List TradeRecord) :
    ∀ seen key, key ∈ (uniqueDataAux data seen).map uid ↔
      key ∈ data.map uid ∧ key ∉ seen := by
  induction data with
  | nil => intro seen key; simp [uniqueDataAux]
  | cons d0 rest ih =>
    intro seen key
    simp only [uniqueDataAux]
    split
    · rename_i hs
      rw [ih]
      simp only [List.map_cons, List.mem_cons]
      constructor
      · rintro ⟨hk, hns⟩
        exact ⟨Or.inr hk, hns⟩
      · rintro ⟨hk | hk, hns⟩
        · exact absurd (hk ▸ hs) hns
        · exact ⟨hk, hns⟩
    · rename_i hs
      simp only [List.map_cons, List.mem_cons, ih]
      constructor
      · rintro (rfl | ⟨hk, hns⟩)
        · exact ⟨Or.inl rfl, hs⟩
        · exact ⟨Or.inr hk, fun hmem => hns (Or.inr hmem)⟩
      · rintro ⟨rfl | hk, hns⟩
        · exact Or.inl rfl
        · by_cases hkey : key = uid d0
          · exact Or.inl hkey
          · refine Or.inr ⟨hk, ?_⟩
            rintro (h | hmem)
            · exact hkey h
            · exact hns hmem

theorem uniqueDataAux_first (data : List TradeRecord) :
    ∀ seen d, d ∈ uniqueDataAux data seen →
      data.find? (fun e => decide (uid e = uid d)) = some d := by
  induction data with
  | nil => intro seen d h; simp [uniqueDataAux] at h
  | cons d0 rest ih =>
    intro seen d h
    simp only [uniqueDataAux] at h
    split at h
    · rename_i hs
      have hd : uid d ∉ seen := uniqueDataAux_not_seen rest seen d h
      have hne : uid d0 ≠ uid d := fun he => hd (he ▸ hs)
      rw [List.find?_cons_of_neg _ (by simpa using hne)]
      exact ih seen d h
    · rename_i hs
      rcases List.mem_cons.mp h with rfl | h
      · exact List.find?_cons_of_pos _ (by simp)
      · have hd : uid d ∉ uid d0 :: seen := uniqueDataAux_not_seen rest _ d h
        have hne : uid d0 ≠ uid d := by
          intro he
          exact hd (he ▸ List.mem_cons_self _ _)
        rw [List.find?_cons_of_neg _ (by simpa using hne)]
        exact ih _ d h

/-- C1: uniqueData returns exactly one record per distinct
(partner code, period) pair occurring in the input (its uids are free of
duplicates and cover exactly the uids of the input), and each surviving
record is the first record in input order carrying its uid. -/
theorem uniqueData_one_per_pair_first (data : List TradeRecord) :
    ((uniqueData data).map uid).Nodup ∧
    (∀ key, key ∈ (uniqueData data).map uid ↔ key ∈ data.map uid) ∧
    (∀ d ∈ uniqueData data,
      data.find? (fun e => decide (uid e = uid d)) = some d) := by
  refine ⟨uniqueDataAux_nodup data [], fun key => ?_, fun d hd => ?_⟩
  · rw [uniqueData, uniqueDataAux_uid_mem]
    simp
  · exact uniqueDataAux_first data [] d hd

theorem uniqueDataAux_fixed (data : List TradeRecord) :
    ∀ seen, (data.map uid).Nodup → (∀ d ∈ data, uid d ∉ seen) →
      uniqueDataAux data seen = data := by
  induction data with
  | nil => intro seen _ _; simp [uniqueDataAux]
  | cons d0 rest ih =>
    intro seen hnd hns
    simp only [List.map_cons, List.nodup_cons] at hnd
    simp only [uniqueDataAux]
    rw [if_neg (hns d0 (List.mem_cons_self _ _))]
    congr 1
    refine ih _ hnd.2 ?_
    intro d hd hmem
    rcases List.mem_cons.mp hmem with h | h
    · exact hnd.1 (h ▸ List.mem_map_of_mem uid hd)
    · exact hns d (List.mem_cons_of_mem _ hd) h

/-- C10: uniqueData is order preserving, its output being a sublist of
its input, and idempotent, mapping its own output to itself. -/
theorem uniqueData_sublist_and_idem (data : List TradeRecord) :
    (uniqueData data).Sublist data ∧
    uniqueData (uniqueData data) = uniqueData data := by
  constructor
  · exact uniqueDataAux_sublist data []
  · refine uniqueDataAux_fixed (uniqueData data) [] ?_ ?_
    · exact uniqueDataAux_nodup data []
    · simp

/-- A JS Set built by insertion: later duplicates are dropped, first
occurrences keep their order.  Walk with the list of elements seen. -/
def setDedupAux {α : Type} [DecidableEq α] : List α → List α → List α
  | [], _ => []
  | x :: rest, seen =>
    if x ∈ seen then setDedupAux rest seen
    else x :: setDedupAux rest (x :: seen)

/-- Spreading a JS Set of the list's elements back into an array. -/
def setDedup {α : Type} [DecidableEq α] (l : List α) : List α :=
  setDedupAux l []

theorem setDedupAux_mem {α : Type} [DecidableEq α] (l : List α) :
    ∀ seen x, x ∈ setDedupAux l seen ↔ x ∈ l ∧ x ∉ seen := by
  induction l with
  | nil => intro seen x; simp [setDedupAux]
  | cons y rest ih =>
    intro seen x
    simp only [setDedupAux]
    split
    · rename_i hs
      rw [ih]
      simp only [List.mem_cons]
      constructor
      · rintro ⟨hx, hns⟩
        exact ⟨Or.inr hx, hns⟩
      · rintro ⟨hx | hx, hns⟩
        · exact absurd (hx ▸ hs) hns
        · exact ⟨hx, hns⟩
    · rename_i hs
      simp only [List.mem_cons, ih]
      constructor
      · rintro (rfl | ⟨hx, hns⟩)
        · exact ⟨Or.inl rfl, hs⟩
        · exact ⟨Or.inr hx, fun hmem => hns (Or.inr hmem)⟩
      · rintro ⟨rfl | hx, hns⟩
        · exact Or.inl rfl
        · by_cases hxy : x = y
          · exact Or.inl hxy
          · refine Or.inr ⟨hx, ?_⟩
            rintro (h | h)
            · exact hxy h
            · exact hns h

theorem setDedupAux_nodup {α : Type} [DecidableEq α] (l : List α) :
    ∀ seen, (setDedupAux l seen).Nodup := by
  induction l with
  | nil => intro seen; simp [setDedupAux]
  | cons y rest ih =>
    intro seen
    simp only [setDedupAux]
    split
    · exact ih seen
    · simp only [List.nodup_cons]
      refine ⟨?_, ih _⟩
      intro hmem
      exact ((setDedupAux_mem rest _ y).mp hmem).2 (List.mem_cons_self _ _)

/-- timeParse of a year number rendered as a string: parsing is
injective and strictly monotone on year numbers, so a date is modelled
by its year number. -/
def period2date (p : Nat) : Nat := p

/-- getPeriods from comtrade.js: the distinct period values of the
records, turned into dates and sorted ascending by numeric compare. -/
def getPeriods (data : List TradeRecord) : List Nat :=
  List.insertionSort (· ≤ ·)
    ((setDedup (data.map (fun d => d.period))).map period2date)

/-- C4: getPeriods returns a strictly ascending (hence duplicate-free)
sequence whose members are exactly the dates of the periods occurring in
the input records. -/
theorem getPeriods_strictly_ascending_exact (data : List TradeRecord) :
    List.Sorted (· < ·) (getPeriods data) ∧
    ∀ p, p ∈ getPeriods data ↔ p ∈ data.map (fun d => period2date d.period) := by
  have hperm := List.perm_insertionSort (· ≤ ·)
    ((setDedup (data.map (fun d => d.period))).map period2date)
  have hnd : ((setDedup (data.map (fun d => d.period))).map period2date).Nodup := by
    refine List.Nodup.map ?_ (setDedupAux_nodup _ [])
    intro a b h
    simpa [period2date] using h
  constructor
  · refine List.Sorted.lt_of_le ?_ (hperm.nodup_iff.mpr hnd)
    exact List.sorted_insertionSort (· ≤ ·) _
  · intro p
    rw [getPeriods, hperm.mem_iff]
    simp only [List.mem_map]
    constructor
    · rintro ⟨q, hq, rfl⟩
      have := ((setDedupAux_mem _ [] q).mp hq).1
      rcases List.mem_map.mp this with ⟨d, hd, rfl⟩
      exact ⟨d, hd, rfl⟩
    · rintro ⟨d, hd, rfl⟩
      refine ⟨d.period, ?_, rfl⟩
      exact (setDedupAux_mem _ [] d.period).mpr
        ⟨List.mem_map_of_mem _ hd, List.not_mem_nil _⟩

/-- The world-trade lookup of the ranking pass: find the world record in
the response and read its TradeValue.  In JS the property access throws
on a missing record; the lookup is modelled with Option. -/
def worldTradeOf (data : List TradeRecord) : Option ℚ :=
  (data.find? (fun d => decide (d.ptCode = world))).map (fun d => d.TradeValue)

/-- JS truthiness of the mapped entries of the ranking pass: undefined
(none) is falsy, and so is the numeric partner code 0. -/
def jsTruthy : Option Nat → Bool
  | none => false
  | some c => decide (c ≠ 0)

/-- The partner selection of the ranking pass: each record maps to its
partner code when its trade value is at least one twentieth of world
trade and it is not the world aggregate, and to undefined otherwise;
the trailing filter then keeps the truthy entries. -/
def selectPartners (newData : List TradeRecord) (worldTrade : ℚ) : List Nat :=
  ((newData.map (fun d =>
      if worldTrade / 20 ≤ d.TradeValue ∧ d.ptCode ≠ world then some d.ptCode
      else none)).filter jsTruthy).filterMap id

/-- The whole ranking pass over the latest-period response: world-trade
lookup, then partner selection against it. -/
def rankingQueue (newData : List TradeRecord) : Option (List Nat) :=
  (worldTradeOf newData).map (fun w => selectPartners newData w)

theorem selectPartners_cons (d : TradeRecord) (rest : List TradeRecord) (w : ℚ) :
    selectPartners (d :: rest) w =
      if w / 20 ≤ d.TradeValue ∧ d.ptCode ≠ world
      then d.ptCode :: selectPartners rest w
      else selectPartners rest w := by
  by_cases hP : w / 20 ≤ d.TradeValue ∧ d.ptCode ≠ world
  · have htr : jsTruthy (some d.ptCode) = true := by
      have : d.ptCode ≠ 0 := hP.2
      simp [jsTruthy, this]
    simp [selectPartners, hP, htr]
  · simp [selectPartners, hP, jsTruthy]

theorem selectPartners_mem (newData : List TradeRecord) (w : ℚ) (c : Nat) :
    c ∈ selectPartners newData w ↔
      ∃ d ∈ newData, d.ptCode = c ∧ c ≠ world ∧ w / 20 ≤ d.TradeValue := by
  induction newData with
  | nil => simp [selectPartners]
  | cons d rest ih =>
    rw [selectPartners_cons]
    by_cases hP : w / 20 ≤ d.TradeValue ∧ d.ptCode ≠ world
    · rw [if_pos hP]
      simp only [List.mem_cons, ih]
      constructor
      · rintro (rfl | ⟨e, he, rfl, hc, hv⟩)
        · exact ⟨d, Or.inl rfl, rfl, hP.2, hP.1⟩
        · exact ⟨e, Or.inr he, rfl, hc, hv⟩
      · rintro ⟨e, rfl | he, rfl, hc, hv⟩
        · exact Or.inl rfl
        · exact Or.inr ⟨e, he, rfl, hc, hv⟩
    · rw [if_neg hP]
      rw [ih]
      constructor
      · rintro ⟨e, he, rfl, hc, hv⟩
        exact ⟨e, List.mem_cons_of_mem _ he, rfl, hc, hv⟩
      · rintro ⟨e, he, rfl, hc, hv⟩
        rcases List.mem_cons.mp he with rfl | he
        · exact absurd ⟨hv, hc⟩ hP
        · exact ⟨e, he, rfl, hc, hv⟩

/-- C2: a partner code is queued by the ranking pass exactly when some
record of the latest-period response carries it with a trade value of at
least one twentieth of world trade (inclusive threshold) and it is not
the world aggregate; with world trade 200, a partner at 10 is selected
and a partner at 9.99 is not. -/
theorem selectPartners_threshold (newData : List TradeRecord) (w : ℚ) (c : Nat) :
    (c ∈ selectPartners newData w ↔
      ∃ d ∈ newData, d.ptCode = c ∧ c ≠ world ∧ w / 20 ≤ d.TradeValue) ∧
    selectPartners
      [⟨0, "World", 2020, 200⟩, ⟨124, "Canada", 2020, 10⟩,
       ⟨842, "USA", 2020, 999 / 100⟩] 200 = [124] := by
  refine ⟨selectPartners_mem newData w c, ?_⟩
  rw [selectPartners_cons, selectPartners_cons, selectPartners_cons]
  norm_num [world, selectPartners]

/-- The partner title set of updateChart: the distinct ptTitle values in
insertion order with the World aggregate title removed. -/
def partnersOf (data : List TradeRecord) : List String :=
  (setDedup (data.map (fun d => d.ptTitle))).filter (fun t => decide (t ≠ "World"))

/-- The per-period object built by the allTrade map of updateChart: the
period, the Other residual, the per-partner values in partner-set order
and whether the console warning about inconsistent data fired. -/
structure PeriodTrade where
  period : Nat
  other : ℚ
  partnerValues : List (String × ℚ)
  warned : Bool
deriving DecidableEq, Repr

/-- The lookup of one partner's trade in the period's records: find the
record by title and read its TradeValue, 0 when there is none. -/
def partnerValue (periodData : List TradeRecord) (t : String) : ℚ :=
  match periodData.find? (fun d => decide (d.ptTitle = t)) with
  | some r => r.TradeValue
  | none => 0

/-- One step of the allTrade map over a single period: filter the
period's records, look up the world record (a missing one makes the JS
property access throw, modelled as none), sum the non-world trade, flag
the warning when partner trade exceeds world trade and build the Other
residual together with the per-partner values. -/
def periodTradeFor (data : List TradeRecord) (partners : List String) (p : Nat) :
    Option PeriodTrade :=
  let periodData := data.filter (fun d => decide (d.period = p))
  match periodData.find? (fun d => decide (d.ptCode = world)) with
  | none => none
  | some wrec =>
    let partnerTrade :=
      ((periodData.filter (fun d => decide (d.ptCode ≠ world))).map
        (fun d => d.TradeValue)).sum
    some { period := p
         , other := wrec.TradeValue - partnerTrade
         , partnerValues := partners.map (fun t => (t, partnerValue periodData t))
         , warned := decide (wrec.TradeValue < partnerTrade) }

/-- The allTrade array of updateChart: the per-period objects over the
sorted distinct periods of the data. -/
def allTrade (data : List TradeRecord) : List (Option PeriodTrade) :=
  (getPeriods data).map (fun p => periodTradeFor data (partnersOf data) p)

theorem partnerValue_eq_zero (L : List TradeRecord) (t : String)
    (h : t ∉ L.map (fun d => d.ptTitle)) : partnerValue L t = 0 := by
  have : L.find? (fun d => decide (d.ptTitle = t)) = none := by
    rw [List.find?_eq_none]
    intro d hd
    simp only [decide_eq_true_eq]
    intro he
    exact h (he ▸ List.mem_map_of_mem _ hd)
  simp [partnerValue, this]

theorem partnerValue_sum_cons (r : TradeRecord) (L : List TradeRecord)
    (P : List String) (hP : P.Nodup)
    (hr : r.ptTitle ∉ L.map (fun d => d.ptTitle)) :
    (P.map (fun t => partnerValue (r :: L) t)).sum =
      (if r.ptTitle ∈ P then r.TradeValue else 0) +
        (P.map (fun t => partnerValue L t)).sum := by
  induction P with
  | nil => simp
  | cons t0 P' ih =>
    simp only [List.nodup_cons] at hP
    simp only [List.map_cons, List.sum_cons]
    rw [ih hP.2]
    by_cases h0 : r.ptTitle = t0
    · subst h0
      have h1 : partnerValue (r :: L) r.ptTitle = r.TradeValue := by
        simp [partnerValue, List.find?_cons_of_pos]
      have h2 : partnerValue L r.ptTitle = 0 := partnerValue_eq_zero L _ hr
      rw [h1, h2, if_neg hP.1, if_pos (List.mem_cons_self _ _)]
    · have h1 : partnerValue (r :: L) t0 = partnerValue L t0 := by
        have : (fun d => decide (d.ptTitle = t0)) r = false := by
          simpa using h0
        simp only [partnerValue]
        rw [List.find?_cons_of_neg _ (by simp [this])]
      rw [h1]
      by_cases hm : r.ptTitle ∈ P'
      · rw [if_pos hm, if_pos (List.mem_cons_of_mem _ hm)]
        ring
      · rw [if_neg hm, if_neg ?_]
        · ring
        · intro hmem
          rcases List.mem_cons.mp hmem with h | h
          · exact h0 h
          · exact hm h

theorem partnerValue_sum_total (L : List TradeRecord) (P : List String)
    (hT : (L.map (fun d => d.ptTitle)).Nodup) (hP : P.Nodup)
    (hcov : ∀ r ∈ L, r.ptTitle ∈ P) :
    (P.map (fun t => partnerValue L t)).sum =
      (L.map (fun d => d.TradeValue)).sum := by
  induction L with
  | nil =>
    have : ∀ t ∈ P, partnerValue ([] : List TradeRecord) t = 0 := by
      intro t _
      simp [partnerValue]
    rw [List.map_congr_left fun t ht => this t ht]
    simp
  | cons r L' ih =>
    simp only [List.map_cons, List.nodup_cons] at hT
    rw [partnerValue_sum_cons r L' P hP hT.1,
      if_pos (hcov r (List.mem_cons_self _ _)),
      ih hT.2 (fun r' hr' => hcov r' (List.mem_cons_of_mem _ hr'))]
    simp

theorem find?_filter_of_imp {α : Type} (L : List α) (p q : α → Bool)
    (h : ∀ r ∈ L, p r = true → q r = true) :
    (L.filter q).find? p = L.find? p := by
  induction L with
  | nil => simp
  | cons r L' ih =>
    have ih' := ih (fun x hx hp => h x (List.mem_cons_of_mem _ hx) hp)
    by_cases hq : q r = true
    · rw [List.filter_cons_of_pos hq]
      by_cases hp : p r = true
      · rw [List.find?_cons_of_pos _ hp, List.find?_cons_of_pos _ hp]
      · rw [List.find?_cons_of_neg _ hp, List.find?_cons_of_neg _ hp, ih']
    · rw [List.filter_cons_of_neg hq]
      have hp : ¬ p r = true := fun hp => hq (h r (List.mem_cons_self _ _) hp)
      rw [List.find?_cons_of_neg _ hp, ih']

theorem partnersOf_nodup (data : List TradeRecord) : (partnersOf data).Nodup :=
  List.Nodup.filter _ (setDedupAux_nodup _ [])

theorem mem_partnersOf (data : List TradeRecord) (t : String) :
    t ∈ partnersOf data ↔ t ∈ data.map (fun d => d.ptTitle) ∧ t ≠ "World" := by
  simp only [partnersOf, setDedup, List.mem_filter, decide_eq_true_eq]
  rw [setDedupAux_mem]
  simp

/-- C3: for a period of the rendered data holding a world-aggregate
record, when the period's records carry pairwise distinct titles and the
world code goes exactly with the World title, the Other category equals
world trade minus the sum of the non-world records' trade values of the
period, and Other plus the sum of all tracked-partner values equals
world trade exactly. -/
theorem other_residual_sums_to_world (data : List TradeRecord) (p : Nat)
    (t : PeriodTrade)
    (hwt : ((data.filter (fun d => decide (d.period = p))).map
      (fun d => d.ptTitle)).Nodup)
    (hww : ∀ r ∈ data, r.period = p → (r.ptCode = world ↔ r.ptTitle = "World"))
    (ht : periodTradeFor data (partnersOf data) p = some t) :
    ∃ wrec, (data.filter (fun d => decide (d.period = p))).find?
        (fun d => decide (d.ptCode = world)) = some wrec ∧
      t.other = wrec.TradeValue -
        (((data.filter (fun d => decide (d.period = p))).filter
          (fun d => decide (d.ptCode ≠ world))).map (fun d => d.TradeValue)).sum ∧
      t.other + (t.partnerValues.map Prod.snd).sum = wrec.TradeValue := by
  simp only [periodTradeFor] at ht
  set periodData := data.filter (fun d => decide (d.period = p)) with hpd
  have hmemdata : ∀ r ∈ periodData, r ∈ data ∧ r.period = p := by
    intro r hr
    have := List.mem_filter.mp hr
    exact ⟨this.1, by simpa using this.2⟩
  rcases hfind : periodData.find? (fun d => decide (d.ptCode = world)) with _ | wrec
  · rw [hfind] at ht
    simp at ht
  · rw [hfind] at ht
    simp only [Option.some.injEq] at ht
    refine ⟨wrec, hfind, ?_, ?_⟩
    · rw [← ht]
    · rw [← ht]
      simp only
      have hsum : ((partnersOf data).map
          (fun s => partnerValue periodData s)).sum =
          ((periodData.filter (fun d => decide (d.ptCode ≠ world))).map
            (fun d => d.TradeValue)).sum := by
        have hstep : ∀ s ∈ partnersOf data,
            partnerValue periodData s =
              partnerValue (periodData.filter
                (fun d => decide (d.ptCode ≠ world))) s := by
          intro s hs
          have hsW : s ≠ "World" := ((mem_partnersOf data s).mp hs).2
          have hside : ∀ r ∈ periodData,
              (fun d => decide (d.ptTitle = s)) r = true →
              (fun d => decide (d.ptCode ≠ world)) r = true := by
            intro r hr hmatch
            simp only [decide_eq_true_eq] at hmatch ⊢
            intro hcode
            have hW := (hww r (hmemdata r hr).1 (hmemdata r hr).2).mp hcode
            exact hsW (hmatch.symm.trans hW)
          rw [partnerValue, partnerValue, find?_filter_of_imp periodData _ _ hside]
        rw [List.map_congr_left hstep]
        refine partnerValue_sum_total _ _ ?_ (partnersOf_nodup data) ?_
        · exact List.Nodup.sublist
            (List.Sublist.map _ (List.filter_sublist _)) hwt
        · intro r hr
          have hrp := List.mem_filter.mp hr
          have hcode : r.ptCode ≠ world := by simpa using hrp.2
          refine (mem_partnersOf data r.ptTitle).mpr ⟨?_, ?_⟩
          · exact List.mem_map_of_mem _ (hmemdata r hrp.1).1
          · intro hW
            exact hcode ((hww r (hmemdata r hrp.1).1
              (hmemdata r hrp.1).2).mpr hW)
      simp only [List.map_map]
      have : (Prod.snd ∘ fun s => (s, partnerValue periodData s)) =
          (fun s => partnerValue periodData s) := rfl
      rw [this, hsum]
      ring

/-- Witness for the residual theorem at the spec's example: world trade
100 with partners reporting 30 and 20, the Other residual is 50 and the
categories sum back to 100. -/
theorem other_residual_sums_to_world_witness :
    ∃ wrec, (([⟨0, "World", 2020, 100⟩, ⟨124, "Canada", 2020, 30⟩,
        ⟨842, "USA", 2020, 20⟩] : List TradeRecord).filter
        (fun d => decide (d.period = 2020))).find?
        (fun d => decide (d.ptCode = world)) = some wrec ∧
      (⟨2020, 50, [("Canada", 30), ("USA", 20)], false⟩ : PeriodTrade).other =
        wrec.TradeValue -
        (((([⟨0, "World", 2020, 100⟩, ⟨124, "Canada", 2020, 30⟩,
          ⟨842, "USA", 2020, 20⟩] : List TradeRecord).filter
            (fun d => decide (d.period = 2020))).filter
          (fun d => decide (d.ptCode ≠ world))).map (fun d => d.TradeValue)).sum ∧
      (⟨2020, 50, [("Canada", 30), ("USA", 20)], false⟩ : PeriodTrade).other +
        (((⟨2020, 50, [("Canada", 30), ("USA", 20)], false⟩ :
          PeriodTrade).partnerValues).map Prod.snd).sum = wrec.TradeValue :=
  other_residual_sums_to_world
    [⟨0, "World", 2020, 100⟩, ⟨124, "Canada", 2020, 30⟩, ⟨842, "USA", 2020, 20⟩]
    2020 ⟨2020, 50, [("Canada", 30), ("USA", 20)], false⟩
    (by decide) (by decide)
    (by norm_num [periodTradeFor, partnerValue, partnersOf, setDedup,
      setDedupAux, world, List.find?_cons,
      (show ("Canada" : String) ≠ "World" by decide),
      (show ("USA" : String) ≠ "World" by decide),
      (show ("USA" : String) ≠ "Canada" by decide),
      (show ("World" : String) ≠ "Canada" by decide),
      (show ("World" : String) ≠ "USA" by decide),
      (show ("Canada" : String) ≠ "USA" by decide)])

/-- C5: when the records hold no world-aggregate entry for the period
under consideration, the world-trade lookup comes back empty, none
standing for the JS undefined dereference: the per-period residual
computation and the latest-period ranking pass both fail there, nothing
guards or skips the period. -/
theorem missing_world_fails (data newData : List TradeRecord) (p : Nat)
    (h : ∀ r ∈ data, r.period = p → r.ptCode ≠ world)
    (hn : ∀ r ∈ newData, r.ptCode ≠ world) :
    periodTradeFor data (partnersOf data) p = none ∧
    worldTradeOf (data.filter (fun d => decide (d.period = p))) = none ∧
    rankingQueue newData = none := by
  have hfind : (data.filter (fun d => decide (d.period = p))).find?
      (fun d => decide (d.ptCode = world)) = none := by
    rw [List.find?_eq_none]
    intro r hr
    have hm := List.mem_filter.mp hr
    simp only [decide_eq_true_eq] at hm ⊢
    exact h r hm.1 hm.2
  refine ⟨?_, ?_, ?_⟩
  · simp only [periodTradeFor, hfind]
  · simp [worldTradeOf, hfind]
  · have hfn : newData.find? (fun d => decide (d.ptCode = world)) = none := by
      rw [List.find?_eq_none]
      intro r hr
      simp only [decide_eq_true_eq]
      exact hn r hr
    simp [rankingQueue, worldTradeOf, hfn]

/-- Witness for the missing-world theorem: a lone Canada record for 2020
and a world-free latest-period response both make the lookups fail. -/
theorem missing_world_fails_witness :
    periodTradeFor [⟨124, "Canada", 2020, 30⟩]
      (partnersOf [⟨124, "Canada", 2020, 30⟩]) 2020 = none ∧
    worldTradeOf (([⟨124, "Canada", 2020, 30⟩] : List TradeRecord).filter
      (fun d => decide (d.period = 2020))) = none ∧
    rankingQueue [⟨124, "Canada", 2020, 30⟩] = none :=
  missing_world_fails [⟨124, "Canada", 2020, 30⟩] [⟨124, "Canada", 2020, 30⟩]
    2020 (by decide) (by decide)

/-- C6: when the non-world partner trade of a period exceeds the world
trade, updateChart flags the console warning and still emits the period
entry carrying the exact negative Other residual: the value is not
clamped to zero, the period is not dropped and nothing aborts. -/
theorem inconsistent_data_warns_and_continues (data : List TradeRecord)
    (p : Nat) (wrec : TradeRecord)
    (hw : (data.filter (fun d => decide (d.period = p))).find?
        (fun d => decide (d.ptCode = world)) = some wrec)
    (hgt : wrec.TradeValue <
      (((data.filter (fun d => decide (d.period = p))).filter
        (fun d => decide (d.ptCode ≠ world))).map (fun d => d.TradeValue)).sum) :
    ∃ t, periodTradeFor data (partnersOf data) p = some t ∧
      t.warned = true ∧
      t.other = wrec.TradeValue -
        (((data.filter (fun d => decide (d.period = p))).filter
          (fun d => decide (d.ptCode ≠ world))).map (fun d => d.TradeValue)).sum ∧
      t.other < 0 := by
  simp only [periodTradeFor, hw]
  refine ⟨_, rfl, ?_, rfl, ?_⟩
  · exact decide_eq_true hgt
  · exact sub_neg.mpr hgt

/-- Witness for the warning theorem: world trade 100 against a single
partner reporting 130 flags the warning and yields Other equal to -30. -/
theorem inconsistent_data_warns_and_continues_witness :
    ∃ t, periodTradeFor [⟨0, "World", 2020, 100⟩, ⟨124, "Canada", 2020, 130⟩]
        (partnersOf [⟨0, "World", 2020, 100⟩, ⟨124, "Canada", 2020, 130⟩])
        2020 = some t ∧
      t.warned = true ∧
      t.other = (⟨0, "World", 2020, 100⟩ : TradeRecord).TradeValue -
        (((([⟨0, "World", 2020, 100⟩, ⟨124, "Canada", 2020, 130⟩] :
          List TradeRecord).filter (fun d => decide (d.period = 2020))).filter
          (fun d => decide (d.ptCode ≠ world))).map (fun d => d.TradeValue)).sum ∧
      t.other < 0 :=
  inconsistent_data_warns_and_continues
    [⟨0, "World", 2020, 100⟩, ⟨124, "Canada", 2020, 130⟩] 2020
    ⟨0, "World", 2020, 100⟩ (by decide) (by norm_num [world])

/-- The backfill loop body on the queued partners: each round pops the
last five entries of the queue (slice -5), all remaining ones when fewer
than five are left, and keeps the rest (slice 0 -5); rounds repeat while
the queue is nonempty.  The popped batches are collected in processing
order. -/
def drainBatches (q : List Nat) : List (List Nat) :=
  if h : q = [] then []
  else q.drop (q.length - 5) :: drainBatches (q.take (q.length - 5))
termination_by q.length
decreasing_by
  simp only [List.length_take]
  exact lt_of_le_of_lt (min_le_left _ _)
    (Nat.sub_lt (List.length_pos.mpr h) (by norm_num))

/-- The while loop of the backfill with explicit fuel, one unit per
round: none when the fuel runs out before the queue empties, otherwise
the batches in processing order; acc collects them reversed. -/
def drainLoop (fuel : Nat) (q : List Nat) (acc : List (List Nat)) :
    Option (List (List Nat)) :=
  match fuel with
  | 0 => if q = [] then some acc.reverse else none
  | f + 1 =>
    if q = [] then some acc.reverse
    else drainLoop f (q.take (q.length - 5)) (q.drop (q.length - 5) :: acc)

theorem drainBatches_reverse_flatten (q : List Nat) :
    ((drainBatches q).reverse).flatten = q := by
  generalize hn : q.length = n
  induction n using Nat.strong_induction_on generalizing q with
  | _ n ih =>
    subst hn
    rw [drainBatches]
    split
    · rename_i h
      subst h
      simp
    · rename_i h
      rw [List.reverse_cons, List.flatten_append]
      rw [ih (q.take (q.length - 5)).length ?_ _ rfl]
      · simp [List.take_append_drop]
      · simp only [List.length_take]
        exact lt_of_le_of_lt (min_le_left _ _)
          (Nat.sub_lt (List.length_pos.mpr h) (by norm_num))

theorem drainBatches_batch_sizes (q : List Nat) :
    ∀ b ∈ drainBatches q, b ≠ [] ∧ b.length ≤ 5 := by
  generalize hn : q.length = n
  induction n using Nat.strong_induction_on generalizing q with
  | _ n ih =>
    subst hn
    rw [drainBatches]
    split
    · simp
    · rename_i h
      intro b hb
      rcases List.mem_cons.mp hb with rfl | hb
      · have hpos : 0 < q.length := List.length_pos.mpr h
        constructor
        · intro hnil
          have hlen : (List.drop (q.length - 5) q).length = 0 := by
            rw [hnil]
            rfl
          rw [List.length_drop] at hlen
          omega
        · rw [List.length_drop]
          omega
      · refine ih (q.take (q.length - 5)).length ?_ _ rfl b hb
        simp only [List.length_take]
        exact lt_of_le_of_lt (min_le_left _ _)
          (Nat.sub_lt (List.length_pos.mpr h) (by norm_num))

theorem drainLoop_complete (fuel : Nat) :
    ∀ (q : List Nat) (acc : List (List Nat)), q.length ≤ fuel →
      drainLoop fuel q acc = some (acc.reverse ++ drainBatches q) := by
  induction fuel with
  | zero =>
    intro q acc hq
    have : q = [] := List.eq_nil_of_length_eq_zero (Nat.le_zero.mp hq)
    subst this
    rw [drainBatches]
    simp [drainLoop]
  | succ f ih =>
    intro q acc hq
    by_cases h : q = []
    · subst h
      rw [drainBatches]
      simp [drainLoop]
    · rw [drainLoop, if_neg h]
      rw [ih (q.take (q.length - 5)) (q.drop (q.length - 5) :: acc) ?_]
      · conv_rhs => rw [drainBatches]
        rw [dif_neg h]
        simp
      · simp only [List.length_take]
        have hpos : 0 < q.length := List.length_pos.mpr h
        have := Nat.sub_lt hpos (show 0 < 5 by norm_num)
        omega

/-- C7: the backfill loop terminates, completing with the queue empty
within one round per queued partner (the fueled loop with fuel the
initial queue length finishes, and the loop only exits on the empty
queue); every popped batch is nonempty with at most five partners; and
the batches, in processing order, drain the queue from its end: their
reversed concatenation restores the initial queue. -/
theorem backfill_loop_terminates_lifo (q : List Nat) :
    drainLoop q.length q [] = some (drainBatches q) ∧
    ((drainBatches q).reverse).flatten = q ∧
    (∀ b ∈ drainBatches q, b ≠ [] ∧ b.length ≤ 5) ∧
    drainBatches [] = [] := by
  refine ⟨?_, drainBatches_reverse_flatten q, drainBatches_batch_sizes q, ?_⟩
  · rw [drainLoop_complete q.length q [] (le_refl _)]
    simp
  · rw [drainBatches]
    simp

/-- The order options of the d3 stack generator; updateChart passes
stackOrderNone, the identity order. -/
inductive StackOrder
  | identity
  | ascending
  | descending
  | insideOut
  | reversed
deriving DecidableEq, Repr

/-- The offset options of the d3 stack generator; updateChart passes
stackOffsetNone, the identity, non normalizing offset. -/
inductive StackOffset
  | identity
  | expand
  | diverging
  | silhouette
  | wiggle
deriving DecidableEq, Repr

/-- The configuration handed to the stack generator in updateChart: the
key sequence and the order and offset options. -/
structure StackConfig where
  keys : List String
  order : StackOrder
  offset : StackOffset
deriving DecidableEq, Repr

/-- The key sequence of updateChart: the partner title set in insertion
order with World deleted, after the add of Other, which, being a JS Set
add, appends Other only when it is not already a member. -/
def stackKeys (data : List TradeRecord) : List String :=
  if "Other" ∈ partnersOf data then partnersOf data
  else partnersOf data ++ ["Other"]

/-- The stack configuration built by updateChart: its keys, the
stackOrderNone order and the stackOffsetNone offset. -/
def stackConfig (data : List TradeRecord) : StackConfig :=
  { keys := stackKeys data
  , order := StackOrder.identity
  , offset := StackOffset.identity }

/-- Modelled from the spec for comparison: the claimed key sequence,
namely the distinct partner titles in insertion order with the World
title removed and Other appended as the last key. -/
def specStackKeys (data : List TradeRecord) : List String :=
  partnersOf data ++ ["Other"]

/-- C8 counterexample: on a data set in which some record's partner
title is the literal Other, the key sequence differs from the claimed
one, because the JS Set add of Other is a no-op on a member: Other is
not appended, and the last key is the other partner's title instead. -/
theorem stackKeys_ne_spec_on_other_title :
    stackKeys [⟨5, "Other", 2020, 1⟩, ⟨6, "Albania", 2020, 2⟩] ≠
      specStackKeys [⟨5, "Other", 2020, 1⟩, ⟨6, "Albania", 2020, 2⟩] ∧
    (stackKeys [⟨5, "Other", 2020, 1⟩, ⟨6, "Albania", 2020, 2⟩]).getLast? ≠
      some "Other" := by
  constructor
  · intro h
    have := congrArg List.length h
    revert this
    decide
  · decide

/-- C8 amended: when no record's partner title is the literal Other, the
keys fed to the stack generator are the distinct partner titles in first
appearance order with the World title removed and Other appended as the
last key, and the generator is configured with the identity order and
the identity (non normalizing) offset; when a record is titled Other,
that title keeps its first appearance position instead of moving last. -/
theorem stackConfig_spec_of_no_other_title (data : List TradeRecord)
    (h : ∀ r ∈ data, r.ptTitle ≠ "Other") :
    stackConfig data =
      { keys := specStackKeys data
      , order := StackOrder.identity
      , offset := StackOffset.identity } := by
  have hno : "Other" ∉ partnersOf data := by
    intro hmem
    rcases List.mem_map.mp ((mem_partnersOf data "Other").mp hmem).1
      with ⟨r, hr, hteq⟩
    exact h r hr hteq
  simp only [stackConfig, stackKeys, if_neg hno, specStackKeys]

/-- Witness for the amended stack-key theorem: a World and a Canada
record give the keys Canada then Other with identity order and offset. -/
theorem stackConfig_spec_of_no_other_title_witness :
    stackConfig [⟨0, "World", 2020, 100⟩, ⟨124, "Canada", 2020, 30⟩] =
      { keys := specStackKeys [⟨0, "World", 2020, 100⟩, ⟨124, "Canada", 2020, 30⟩]
      , order := StackOrder.identity
      , offset := StackOffset.identity } :=
  stackConfig_spec_of_no_other_title
    [⟨0, "World", 2020, 100⟩, ⟨124, "Canada", 2020, 30⟩] (by decide)

/-- The axis scales of addComtradeData, created once before the update
loop: the time domain spans the least to the greatest period date of the
initial data and the value domain runs from zero up to the greatest
world-aggregate trade value observed there. -/
structure Scales where
  dateMin : Nat
  dateMax : Nat
  valueMin : ℚ
  valueMax : ℚ
deriving DecidableEq, Repr

/-- Computing the scales from the initial data as addComtradeData does:
least and greatest period date, zero, and the greatest world trade
value; none when the data is empty and JS would build infinite domains. -/
def computeScales (data : List TradeRecord) : Option Scales :=
  match (getPeriods data).min?, (getPeriods data).max?,
      ((data.filter (fun d => decide (d.ptCode = world))).map
        (fun d => d.TradeValue)).max? with
  | some lo, some hi, some m => some ⟨lo, hi, 0, m⟩
  | _, _, _ => none

/-- The backfill rounds of addComtradeData as a trace of chart updates:
each round pops the last five queued partners, fetches their full
history, merges the response into the accumulated records through
uniqueData and calls updateChart with the merged data and the scales
captured before the loop; fetch stands for the API response to a batch. -/
def backfillTrace (fetch : List Nat → List TradeRecord) (s : Scales) :
    List Nat → List TradeRecord → List (Scales × List TradeRecord)
  | q, data =>
    if h : q = [] then []
    else
      (s, uniqueData (data ++ fetch (q.drop (q.length - 5)))) ::
        backfillTrace fetch s (q.take (q.length - 5))
          (uniqueData (data ++ fetch (q.drop (q.length - 5))))
termination_by q data => q.length
decreasing_by
  simp only [List.length_take]
  exact lt_of_le_of_lt (min_le_left _ _)
    (Nat.sub_lt (List.length_pos.mpr h) (by norm_num))

/-- The whole addComtradeData run over its fetch responses: dedupe the
initial all-years response, compute the scales once, draw the first
chart, run the ranking pass over the latest-period response and then the
backfill loop; none when a needed lookup is missing.  The result is the
scale setup and the chart updates in order, each paired with the scales
it was called with. -/
def addComtradeModel (initialResp latestResp : List TradeRecord)
    (fetch : List Nat → List TradeRecord) :
    Option (Scales × List (Scales × List TradeRecord)) :=
  match computeScales (uniqueData initialResp) with
  | none => none
  | some s =>
    match worldTradeOf latestResp with
    | none => none
    | some w =>
      some (s, (s, uniqueData initialResp) ::
        backfillTrace fetch s (selectPartners latestResp w)
          (uniqueData initialResp))

theorem backfillTrace_scales (fetch : List Nat → List TradeRecord)
    (s : Scales) (q : List Nat) (data : List TradeRecord) :
    ∀ u ∈ backfillTrace fetch s q data, u.fst = s := by
  generalize hn : q.length = n
  induction n using Nat.strong_induction_on generalizing q data with
  | _ n ih =>
    subst hn
    rw [backfillTrace]
    split
    · simp
    · rename_i h
      intro u hu
      rcases List.mem_cons.mp hu with rfl | hu
      · rfl
      · refine ih (q.take (q.length - 5)).length ?_ _ _ rfl u hu
        simp only [List.length_take]
        exact lt_of_le_of_lt (min_le_left _ _)
          (Nat.sub_lt (List.length_pos.mpr h) (by norm_num))

/-- C9: on a completed run the axis scales are computed exactly once,
from the deduplicated initial response, the time domain from its least
and greatest period date and the value domain from zero to its greatest
world trade value, and every chart update of the run, the initial one
and each incremental one after a merge, is called with exactly those
unchanged scales; no update recomputes the domains. -/
theorem scales_computed_once_never_updated
    (initialResp latestResp : List TradeRecord)
    (fetch : List Nat → List TradeRecord) (s : Scales)
    (trace : List (Scales × List TradeRecord))
    (h : addComtradeModel initialResp latestResp fetch = some (s, trace)) :
    computeScales (uniqueData initialResp) = some s ∧
    trace.head? = some (s, uniqueData initialResp) ∧
    ∀ u ∈ trace, u.fst = s := by
  unfold addComtradeModel at h
  rcases hcs : computeScales (uniqueData initialResp) with _ | s0
  · rw [hcs] at h
    simp at h
  · rw [hcs] at h
    rcases hwt : worldTradeOf latestResp with _ | w
    · rw [hwt] at h
      simp at h
    · rw [hwt] at h
      simp only [Option.some.injEq, Prod.mk.injEq] at h
      obtain ⟨rfl, rfl⟩ := h
      refine ⟨rfl, rfl, ?_⟩
      intro u hu
      rcases List.mem_cons.mp hu with rfl | hu
      · rfl
      · exact backfillTrace_scales fetch s0 _ _ u hu

/-- Witness for the one-time-scales theorem: a two-record initial
response, a world-only latest period (empty backfill queue) and a run of
one chart update carrying the scales computed from the initial data. -/
theorem scales_computed_once_never_updated_witness :
    computeScales (uniqueData
        [⟨0, "World", 2019, 100⟩, ⟨124, "Canada", 2019, 30⟩]) =
      some ⟨2019, 2019, 0, 100⟩ ∧
    ([((⟨2019, 2019, 0, 100⟩ : Scales),
        ([⟨0, "World", 2019, 100⟩, ⟨124, "Canada", 2019, 30⟩] :
          List TradeRecord))].head? =
      some (⟨2019, 2019, 0, 100⟩,
        uniqueData [⟨0, "World", 2019, 100⟩, ⟨124, "Canada", 2019, 30⟩])) ∧
    ∀ u ∈ [((⟨2019, 2019, 0, 100⟩ : Scales),
        ([⟨0, "World", 2019, 100⟩, ⟨124, "Canada", 2019, 30⟩] :
          List TradeRecord))],
      u.fst = ⟨2019, 2019, 0, 100⟩ :=
  scales_computed_once_never_updated
    [⟨0, "World", 2019, 100⟩, ⟨124, "Canada", 2019, 30⟩]
    [⟨0, "World", 2019, 100⟩] (fun _ => []) ⟨2019, 2019, 0, 100⟩
    [(⟨2019, 2019, 0, 100⟩,
      [⟨0, "World", 2019, 100⟩, ⟨124, "Canada", 2019, 30⟩])]
    (by
      have h1 : uniqueData
          [⟨0, "World", 2019, 100⟩, ⟨124, "Canada", 2019, 30⟩] =
          [⟨0, "World", 2019, 100⟩, ⟨124, "Canada", 2019, 30⟩] := by decide
      have h2 : computeScales
          [⟨0, "World", 2019, 100⟩, ⟨124, "Canada", 2019, 30⟩] =
          some ⟨2019, 2019, 0, 100⟩ := by decide
      have h3 : worldTradeOf [⟨0, "World", 2019, 100⟩] = some 100 := by decide
      have h4 : selectPartners [⟨0, "World", 2019, 100⟩] (100 : ℚ) = [] := by
        rw [selectPartners_cons]
        norm_num [world, selectPartners]
      simp only [addComtradeModel, h1, h2, h3, h4]
      rw [backfillTrace]
      simp)
